import Mathlib

/-!
Verification of the Per-User Session Admission Controller of the
voice-ferry repository, as described by its specification.  The
repository ships only the probing/test scripts for this component
(src/testing, src/utilities, src/scripts); the controller itself is not
part of the source tree, so every definition below is modelled from the
specification's description of the core (Limit Registry, Admission
Controller, Session Ledger, Counter Store).
-/

namespace VoiceFerry

/-- Modelled from the spec: the overflow action of `GlobalConfig`
(`enum{Reject, TerminateOldest}`), applied when a user is at their limit. -/
inductive OverflowAction : Type
  | Reject
  | TerminateOldest
deriving DecidableEq, Repr

/-- Modelled from the spec: `GlobalConfig = { enabled, defaultLimit,
overflowAction }`, process-wide configuration of the admission controller.
`defaultLimit >= 0` is captured by using `Nat`. -/
structure GlobalConfig : Type where
  enabled : Bool
  defaultLimit : Nat
  overflowAction : OverflowAction
deriving DecidableEq, Repr

/-- Modelled from the spec: `SessionRecord = { sessionID, username,
admittedAt }`, created at successful admission, destroyed at release or
eviction.  Timestamps are modelled as naturals. -/
structure SessionRecord : Type where
  sessionID : String
  username : String
  admittedAt : Nat
deriving DecidableEq, Repr

/-- Association-list lookup, used for both the Limit Registry's sparse
override map and the Counter Store's key→integer map. -/
def alookup {α : Type} : List (String × α) → String → Option α
  | [], _ => none
  | (v, k) :: rest, u => if v = u then some k else alookup rest u

/-- Modelled from the spec: the whole state of the core.  `overrides` is
the Limit Registry's sparse username → override-limit map (absence means
"use default"), `ledger` is the Session Ledger (the per-user records of
currently admitted sessions), `counters` is the Counter Store (a shared
key→integer map; a missing key is count zero), `rejections` is the Stats
Reporter's monotonic rejection counter. -/
structure CoreState : Type where
  config : GlobalConfig
  overrides : List (String × Nat)
  ledger : List SessionRecord
  counters : List (String × Int)
  rejections : Nat
deriving DecidableEq, Repr

/-- Modelled from the spec: `GetEffectiveLimit(username) -> integer`
returns the override if one exists for `username`, otherwise
`defaultLimit`; a lookup miss is not an error. -/
def getEffectiveLimit (s : CoreState) (u : String) : Nat :=
  (alookup s.overrides u).getD s.config.defaultLimit

/-- Modelled from the spec: `SetUserLimit(username, limit)` persists the
override (`limit == 0` means unlimited); effective immediately. -/
def setUserLimit (s : CoreState) (u : String) (k : Nat) : CoreState :=
  { s with overrides := (u, k) :: s.overrides.filter (fun p => p.1 ≠ u) }

/-- Modelled from the spec: `DeleteUserLimit(username)` removes the
override; deleting a non-existent override succeeds silently. -/
def deleteUserLimit (s : CoreState) (u : String) : CoreState :=
  { s with overrides := s.overrides.filter (fun p => p.1 ≠ u) }

/-- Modelled from the spec: `ListOverrides() -> mapping(username ->
limit)`, a snapshot of the registry's override map. -/
def listOverrides (s : CoreState) : List (String × Nat) :=
  s.overrides

/-! ### Registry lookup lemmas -/

theorem alookup_filter_ne {α : Type} (l : List (String × α)) (u w : String) :
    alookup (l.filter (fun p => p.1 ≠ u)) w =
      if w = u then none else alookup l w := by
  induction l with
  | nil => by_cases hw : w = u <;> simp [alookup, hw]
  | cons p rest ih =>
    obtain ⟨a, k⟩ := p
    simp only [ne_eq, decide_not] at ih
    by_cases ha : a = u <;> by_cases hw : w = u
    · subst ha; subst hw; simp [alookup, ih]
    · subst ha
      have haw : a ≠ w := fun h => hw h.symm
      simp [alookup, ih, hw, haw]
    · subst hw
      have haw : a ≠ w := ha
      simp [alookup, ih, ha, haw]
    · simp [alookup, ih, ha, hw]

theorem alookup_set_self {α : Type} (l : List (String × α)) (u : String) (k : α) :
    alookup ((u, k) :: l.filter (fun p => p.1 ≠ u)) u = some k := by
  simp [alookup]

/-! ### Counter Store

Modelled from the spec: a shared key→integer store with atomic increment,
decrement clamped at zero, get (a missing key reads as zero) and delete. -/

/-- Modelled from the spec: `Get(key) -> value or absent(=0)`; a missing
Counter Store key must be treated as count zero. -/
def counterGet (s : CoreState) (u : String) : Int :=
  (alookup s.counters u).getD 0

/-- Store a counter value, replacing any previous binding for the key. -/
def counterSet (cs : List (String × Int)) (u : String) (v : Int) :
    List (String × Int) :=
  (u, v) :: cs.filter (fun p => p.1 ≠ u)

/-- Modelled from the spec: `Incr(key) -> newValue`, the Counter Store's
atomic increment. -/
def counterIncr (s : CoreState) (u : String) : CoreState :=
  { s with counters := counterSet s.counters u (counterGet s u + 1) }

/-- Modelled from the spec: `Decr(key) -> newValue (clamped at zero)`:
the counter must never be decremented below zero; a decrement that would
do so is clamped to zero. -/
def counterDecr (s : CoreState) (u : String) : CoreState :=
  { s with counters := counterSet s.counters u (max 0 (counterGet s u - 1)) }

/-! ### Session Ledger

Modelled from the spec: the set of currently admitted session identifiers
per user, logically a per-user set of `(sessionID, admittedAt)` records. -/

/-- Does a ledger record match a `(username, sessionID)` key? -/
def keyMatch (r : SessionRecord) (u sid : String) : Bool :=
  r.username == u && r.sessionID == sid

/-- Is a `(username, sessionID)` pair currently in the ledger? -/
def hasKey (l : List SessionRecord) (u sid : String) : Bool :=
  l.any (fun r => keyMatch r u sid)

/-- Modelled from the spec: the ledger's `Remove(username, sessionID)`,
deleting the record(s) for that key. -/
def removeKey (l : List SessionRecord) (u sid : String) : List SessionRecord :=
  l.filter (fun r => !(keyMatch r u sid))

/-- Number of ledger records belonging to a username: the size of
`{SessionRecords for username}` in the spec's central invariant. -/
def countUser (l : List SessionRecord) (u : String) : Nat :=
  match l with
  | [] => 0
  | r :: rest => (if r.username = u then 1 else 0) + countUser rest u

/-- Number of ledger records matching a `(username, sessionID)` key. -/
def countKey (l : List SessionRecord) (u sid : String) : Nat :=
  match l with
  | [] => 0
  | r :: rest => (if keyMatch r u sid then 1 else 0) + countKey rest u sid

/-- Modelled from the spec: the ledger's `List(username)`, the records
currently admitted for a username. -/
def userRecords (s : CoreState) (u : String) : List SessionRecord :=
  s.ledger.filter (fun r => r.username == u)

/-- The spec's deterministic eviction order: smallest `admittedAt`, then
lexicographically smallest `sessionID`. -/
def olderThan (a b : SessionRecord) : Prop :=
  a.admittedAt < b.admittedAt ∨
    (a.admittedAt = b.admittedAt ∧ a.sessionID < b.sessionID)

instance (a b : SessionRecord) : Decidable (olderThan a b) := by
  unfold olderThan; infer_instance

/-- Minimum of a record list under `olderThan`, keeping the earlier
element on ties. -/
def oldestRec : List SessionRecord → Option SessionRecord
  | [] => none
  | r :: rest =>
    match oldestRec rest with
    | none => some r
    | some o => some (if olderThan o r then o else r)

/-- Modelled from the spec: the ledger's `Oldest(username) -> sessionID or
none`, breaking ties deterministically (smallest `admittedAt`, then
lexicographically smallest `sessionID`). -/
def oldestSession (s : CoreState) (u : String) : Option SessionRecord :=
  oldestRec (userRecords s u)

/-! ### Admission Controller -/

/-- Modelled from the spec: the outcome of `TryAdmit`:
`{Allowed, Rejected, AllowedWithEviction(evictedSessionID)}`. -/
inductive Decision : Type
  | Allowed
  | Rejected
  | AllowedWithEviction (evictedSessionID : String)
deriving DecidableEq, Repr

/-- Admit a session: atomically increment the user's counter and insert
the `SessionRecord` into the ledger (spec step 3's "increment and insert",
also the admit half of step 5's evict-then-admit). -/
def admitInto (s : CoreState) (u sid : String) (t : Nat) : CoreState :=
  let s' := counterIncr s u
  { s' with ledger := ⟨sid, u, t⟩ :: s'.ledger }

/-- Modelled from the spec: `Release(username, sessionID)` decrements the
counter (clamped at zero) and removes the ledger entry for `sessionID` if
present; releasing an unknown pair is a no-op, not an error. -/
def release (s : CoreState) (u sid : String) : CoreState :=
  if hasKey s.ledger u sid then
    let s' := counterDecr s u
    { s' with ledger := removeKey s'.ledger u sid }
  else s

/-- Modelled from the spec: `TryAdmit(username, sessionID)`:
1. if `enabled == false`, Allowed unconditionally;
2. `limit == 0` ⇒ always Allowed;
3. if `count < limit`, increment and insert, Allowed;
4. if `count >= limit` and `overflowAction == Reject`, Rejected, no state
   mutation (the Stats Reporter's rejection counter is bumped);
5. if `count >= limit` and `overflowAction == TerminateOldest`, evict the
   oldest record for the user (remove + decrement), then admit the new
   session, returning `AllowedWithEviction` naming the evicted session. -/
def tryAdmit (s : CoreState) (u sid : String) (t : Nat) : Decision × CoreState :=
  if s.config.enabled = false then (.Allowed, s)
  else
    let limit := getEffectiveLimit s u
    if limit = 0 then (.Allowed, admitInto s u sid t)
    else if counterGet s u < (limit : Int) then (.Allowed, admitInto s u sid t)
    else
      match s.config.overflowAction with
      | .Reject => (.Rejected, { s with rejections := s.rejections + 1 })
      | .TerminateOldest =>
        match oldestSession s u with
        | some victim =>
          (.AllowedWithEviction victim.sessionID,
            admitInto (release s u victim.sessionID) u sid t)
        | none => (.Allowed, admitInto s u sid t)

/-- Run a sequence of `TryAdmit` calls for one user, one per time tick,
collecting the decisions and threading the state. -/
def runAdmits (s : CoreState) (u : String) (sids : List String) (t : Nat) :
    List Decision × CoreState :=
  match sids with
  | [] => ([], s)
  | sid :: rest =>
    let p := tryAdmit s u sid t
    let q := runAdmits p.2 u rest (t + 1)
    (p.1 :: q.1, q.2)

/-- The spec's central correctness property: the Counter Store count of a
user equals the number of that user's `SessionRecord`s in the ledger, and
no `(username, sessionID)` key is held twice. -/
def Inv (s : CoreState) : Prop :=
  (∀ u, counterGet s u = (countUser s.ledger u : Int)) ∧
    ∀ u sid, countKey s.ledger u sid ≤ 1

/-! ### Counter Store lemmas -/

theorem alookup_counterSet (cs : List (String × Int)) (u : String) (v : Int)
    (w : String) :
    alookup (counterSet cs u v) w = if w = u then some v else alookup cs w := by
  unfold counterSet
  by_cases hw : w = u
  · subst hw; simp [alookup]
  · have huw : ¬ u = w := fun h => hw h.symm
    rw [if_neg hw]
    show (if u = w then some v else alookup (cs.filter fun p => p.1 ≠ u) w) =
      alookup cs w
    rw [if_neg huw, alookup_filter_ne, if_neg hw]

theorem counterGet_counterIncr (s : CoreState) (u w : String) :
    counterGet (counterIncr s u) w =
      if w = u then counterGet s u + 1 else counterGet s w := by
  by_cases hw : w = u <;>
    simp [counterGet, counterIncr, alookup_counterSet, hw]

theorem counterGet_counterDecr (s : CoreState) (u w : String) :
    counterGet (counterDecr s u) w =
      if w = u then max 0 (counterGet s u - 1) else counterGet s w := by
  by_cases hw : w = u <;>
    simp [counterGet, counterDecr, alookup_counterSet, hw]

/-! ### Session Ledger lemmas -/

theorem keyMatch_username {r : SessionRecord} {u sid : String}
    (h : keyMatch r u sid = true) : r.username = u := by
  simp [keyMatch] at h; exact h.1

theorem countKey_le_countUser (l : List SessionRecord) (u sid : String) :
    countKey l u sid ≤ countUser l u := by
  induction l with
  | nil => simp [countKey, countUser]
  | cons r rest ih =>
    by_cases hk : keyMatch r u sid = true
    · simp [countKey, countUser, hk, keyMatch_username hk]; omega
    · simp only [countKey, countUser, hk, if_false]
      by_cases hu : r.username = u <;> simp [hu] <;> omega

theorem hasKey_false_iff (l : List SessionRecord) (u sid : String) :
    hasKey l u sid = false ↔ countKey l u sid = 0 := by
  induction l with
  | nil => simp [hasKey, countKey]
  | cons r rest ih =>
    by_cases hk : keyMatch r u sid = true <;>
      simp [hasKey, countKey, hk, List.any] at * <;> simp [ih]

theorem countUser_removeKey_self (l : List SessionRecord) (u sid : String) :
    countUser (removeKey l u sid) u = countUser l u - countKey l u sid := by
  induction l with
  | nil => simp [removeKey, countUser, countKey]
  | cons r rest ih =>
    have hle := countKey_le_countUser rest u sid
    by_cases hk : keyMatch r u sid = true
    · simp [removeKey, List.filter, countUser, countKey, hk,
        keyMatch_username hk] at *
      omega
    · simp only [removeKey, List.filter, hk, Bool.not_false, countUser,
        countKey, if_false] at *
      by_cases hu : r.username = u <;> simp [hu, hk] <;> omega

theorem countUser_removeKey_ne (l : List SessionRecord) (u sid w : String)
    (hw : w ≠ u) :
    countUser (removeKey l u sid) w = countUser l w := by
  induction l with
  | nil => simp [removeKey]
  | cons r rest ih =>
    by_cases hk : keyMatch r u sid = true
    · have hu : r.username = u := keyMatch_username hk
      have hru : ¬ r.username = w := by rw [hu]; exact fun h => hw h.symm
      simp [removeKey, List.filter, countUser, hk, hru] at *
      simpa [removeKey] using ih
    · simp only [removeKey, List.filter, hk, Bool.not_false, countUser] at *
      simp [ih]

theorem countKey_removeKey_self (l : List SessionRecord) (u sid : String) :
    countKey (removeKey l u sid) u sid = 0 := by
  induction l with
  | nil => simp [removeKey, countKey]
  | cons r rest ih =>
    by_cases hk : keyMatch r u sid = true <;>
      simp [removeKey, List.filter, countKey, hk] at * <;>
      simpa [removeKey] using ih

theorem countKey_removeKey_le (l : List SessionRecord) (u sid w x : String) :
    countKey (removeKey l u sid) w x ≤ countKey l w x := by
  induction l with
  | nil => simp [removeKey]
  | cons r rest ih =>
    by_cases hk : keyMatch r u sid = true
    · simp only [removeKey, List.filter, hk, Bool.not_true, countKey] at *
      by_cases hx : keyMatch r w x = true <;> simp [hx] <;> omega
    · simp only [removeKey, List.filter, hk, Bool.not_false, countKey] at *
      by_cases hx : keyMatch r w x = true <;> simp [hx] <;> omega

theorem hasKey_removeKey_false (l : List SessionRecord) (u sid w x : String)
    (h : hasKey l w x = false) : hasKey (removeKey l u sid) w x = false := by
  rw [hasKey_false_iff] at h ⊢
  have := countKey_removeKey_le l u sid w x
  omega

theorem countKey_pos_of_hasKey {l : List SessionRecord} {u sid : String}
    (h : hasKey l u sid = true) : 1 ≤ countKey l u sid := by
  by_cases h0 : countKey l u sid = 0
  · rw [← hasKey_false_iff] at h0; rw [h] at h0; cases h0
  · omega

theorem countUser_pos_of_hasKey {l : List SessionRecord} {u sid : String}
    (h : hasKey l u sid = true) : 1 ≤ countUser l u := by
  have h1 := countKey_pos_of_hasKey h
  have h2 := countKey_le_countUser l u sid
  omega

/-! ### `admitInto` and `release` lemmas -/

theorem admitInto_ledger (s : CoreState) (u sid : String) (t : Nat) :
    (admitInto s u sid t).ledger = ⟨sid, u, t⟩ :: s.ledger := rfl

theorem admitInto_config (s : CoreState) (u sid : String) (t : Nat) :
    (admitInto s u sid t).config = s.config := rfl

theorem admitInto_overrides (s : CoreState) (u sid : String) (t : Nat) :
    (admitInto s u sid t).overrides = s.overrides := rfl

theorem counterGet_admitInto (s : CoreState) (u sid : String) (t : Nat)
    (w : String) :
    counterGet (admitInto s u sid t) w =
      if w = u then counterGet s u + 1 else counterGet s w := by
  by_cases hw : w = u <;>
    simp [counterGet, admitInto, counterIncr, alookup_counterSet, hw]

theorem countUser_admitInto (s : CoreState) (u sid : String) (t : Nat)
    (w : String) :
    countUser (admitInto s u sid t).ledger w =
      (if w = u then 1 else 0) + countUser s.ledger w := by
  rw [admitInto_ledger]
  show (if (⟨sid, u, t⟩ : SessionRecord).username = w then 1 else 0) +
      countUser s.ledger w = _
  by_cases hw : w = u
  · subst hw; simp
  · have huw : ¬ u = w := fun h => hw h.symm
    simp [SessionRecord.username, huw, hw]

theorem release_config (s : CoreState) (u sid : String) :
    (release s u sid).config = s.config := by
  unfold release; split <;> rfl

theorem release_overrides (s : CoreState) (u sid : String) :
    (release s u sid).overrides = s.overrides := by
  unfold release; split <;> rfl

theorem release_of_hasKey {s : CoreState} {u sid : String}
    (h : hasKey s.ledger u sid = true) :
    release s u sid =
      { counterDecr s u with
        ledger := removeKey (counterDecr s u).ledger u sid } := by
  unfold release; rw [if_pos h]

theorem release_of_not_hasKey {s : CoreState} {u sid : String}
    (h : hasKey s.ledger u sid = false) :
    release s u sid = s := by
  unfold release; rw [h]; simp

theorem release_ledger_removeKey (s : CoreState) (u sid : String)
    (h : hasKey s.ledger u sid = true) :
    (release s u sid).ledger = removeKey s.ledger u sid := by
  rw [release_of_hasKey h]; rfl

theorem counterGet_release (s : CoreState) (u sid : String) (w : String) :
    counterGet (release s u sid) w =
      if hasKey s.ledger u sid = true then
        (if w = u then max 0 (counterGet s u - 1) else counterGet s w)
      else counterGet s w := by
  by_cases h : hasKey s.ledger u sid = true
  · rw [release_of_hasKey h, if_pos h]
    have : counterGet { counterDecr s u with
        ledger := removeKey (counterDecr s u).ledger u sid } w =
        counterGet (counterDecr s u) w := rfl
    rw [this, counterGet_counterDecr]
  · rw [Bool.not_eq_true] at h
    rw [release_of_not_hasKey h, if_neg (by simp [h])]

/-! ### `tryAdmit` branch characterizations -/

theorem tryAdmit_disabled {s : CoreState} (u sid : String) (t : Nat)
    (h : s.config.enabled = false) :
    tryAdmit s u sid t = (.Allowed, s) := by
  unfold tryAdmit; rw [if_pos h]

theorem tryAdmit_unlimited {s : CoreState} {u : String} (sid : String) (t : Nat)
    (hen : s.config.enabled = true) (h0 : getEffectiveLimit s u = 0) :
    tryAdmit s u sid t = (.Allowed, admitInto s u sid t) := by
  unfold tryAdmit; rw [if_neg (by simp [hen])]; simp [h0]

theorem tryAdmit_under {s : CoreState} {u : String} (sid : String) (t : Nat)
    (hen : s.config.enabled = true) (h0 : getEffectiveLimit s u ≠ 0)
    (hlt : counterGet s u < (getEffectiveLimit s u : Int)) :
    tryAdmit s u sid t = (.Allowed, admitInto s u sid t) := by
  unfold tryAdmit; rw [if_neg (by simp [hen])]; simp [h0, hlt]

theorem tryAdmit_reject {s : CoreState} {u : String} (sid : String) (t : Nat)
    (hen : s.config.enabled = true) (h0 : getEffectiveLimit s u ≠ 0)
    (hge : ¬ counterGet s u < (getEffectiveLimit s u : Int))
    (hact : s.config.overflowAction = .Reject) :
    tryAdmit s u sid t =
      (.Rejected, { s with rejections := s.rejections + 1 }) := by
  unfold tryAdmit; rw [if_neg (by simp [hen])]; simp [h0, hge, hact]

theorem tryAdmit_evict {s : CoreState} {u : String} (sid : String) (t : Nat)
    {v : SessionRecord}
    (hen : s.config.enabled = true) (h0 : getEffectiveLimit s u ≠ 0)
    (hge : ¬ counterGet s u < (getEffectiveLimit s u : Int))
    (hact : s.config.overflowAction = .TerminateOldest)
    (hold : oldestSession s u = some v) :
    tryAdmit s u sid t =
      (.AllowedWithEviction v.sessionID,
        admitInto (release s u v.sessionID) u sid t) := by
  unfold tryAdmit; rw [if_neg (by simp [hen])]; simp [h0, hge, hact, hold]

theorem tryAdmit_evict_none {s : CoreState} {u : String} (sid : String) (t : Nat)
    (hen : s.config.enabled = true) (h0 : getEffectiveLimit s u ≠ 0)
    (hge : ¬ counterGet s u < (getEffectiveLimit s u : Int))
    (hact : s.config.overflowAction = .TerminateOldest)
    (hold : oldestSession s u = none) :
    tryAdmit s u sid t = (.Allowed, admitInto s u sid t) := by
  unfold tryAdmit; rw [if_neg (by simp [hen])]; simp [h0, hge, hact, hold]

/-! ### Invariant preservation -/

theorem Inv_admitInto {s : CoreState} {u sid : String} (t : Nat)
    (hInv : Inv s) (hfresh : hasKey s.ledger u sid = false) :
    Inv (admitInto s u sid t) := by
  obtain ⟨hc, hk⟩ := hInv
  constructor
  · intro w
    rw [counterGet_admitInto, countUser_admitInto]
    by_cases hw : w = u
    · subst hw; rw [if_pos rfl, if_pos rfl, hc w]; push_cast; ring
    · rw [if_neg hw, if_neg hw, hc w]; push_cast; ring
  · intro w x
    rw [admitInto_ledger]
    show (if keyMatch ⟨sid, u, t⟩ w x then 1 else 0) +
      countKey s.ledger w x ≤ 1
    by_cases hm : keyMatch (⟨sid, u, t⟩ : SessionRecord) w x = true
    · have h1 : u = w ∧ sid = x := by
        simpa [keyMatch, SessionRecord.username, SessionRecord.sessionID]
          using hm
      obtain ⟨h1, h2⟩ := h1
      subst h1; subst h2
      rw [(hasKey_false_iff s.ledger u sid).mp hfresh]
      simp [hm]
    · have := hk w x
      simp [hm]; omega

theorem Inv_release {s : CoreState} (u sid : String) (hInv : Inv s) :
    Inv (release s u sid) := by
  obtain ⟨hc, hk⟩ := hInv
  by_cases h : hasKey s.ledger u sid = true
  · have hled : (release s u sid).ledger = removeKey s.ledger u sid :=
      release_ledger_removeKey s u sid h
    constructor
    · intro w
      rw [counterGet_release, if_pos h, hled]
      by_cases hw : w = u
      · subst hw
        rw [if_pos rfl, countUser_removeKey_self]
        have h1 := countKey_pos_of_hasKey h
        have h1b := hk w sid
        have h2 := countUser_pos_of_hasKey h
        have hkey1 : countKey s.ledger w sid = 1 := le_antisymm h1b h1
        rw [hc w, hkey1]
        omega
      · rw [if_neg hw, countUser_removeKey_ne _ _ _ _ hw, hc w]
    · intro w x
      rw [hled]
      exact le_trans (countKey_removeKey_le _ _ _ _ _) (hk w x)
  · rw [Bool.not_eq_true] at h
    rw [release_of_not_hasKey h]
    exact ⟨hc, hk⟩

theorem Inv_tryAdmit {s : CoreState} {u sid : String} (t : Nat)
    (hInv : Inv s) (hfresh : hasKey s.ledger u sid = false) :
    Inv (tryAdmit s u sid t).2 := by
  by_cases hen : s.config.enabled = false
  · rw [tryAdmit_disabled u sid t hen]; exact hInv
  · rw [Bool.not_eq_false] at hen
    by_cases h0 : getEffectiveLimit s u = 0
    · rw [tryAdmit_unlimited sid t hen h0]; exact Inv_admitInto t hInv hfresh
    · by_cases hlt : counterGet s u < (getEffectiveLimit s u : Int)
      · rw [tryAdmit_under sid t hen h0 hlt]
        exact Inv_admitInto t hInv hfresh
      · cases hact : s.config.overflowAction with
        | Reject =>
          rw [tryAdmit_reject sid t hen h0 hlt hact]
          exact ⟨hInv.1, hInv.2⟩
        | TerminateOldest =>
          cases hold : oldestSession s u with
          | none =>
            rw [tryAdmit_evict_none sid t hen h0 hlt hact hold]
            exact Inv_admitInto t hInv hfresh
          | some v =>
            rw [tryAdmit_evict sid t hen h0 hlt hact hold]
            have h1 : Inv (release s u v.sessionID) := Inv_release _ _ hInv
            have h2 : hasKey (release s u v.sessionID).ledger u sid = false := by
              by_cases hh : hasKey s.ledger u v.sessionID = true
              · rw [release_ledger_removeKey _ _ _ hh]
                exact hasKey_removeKey_false _ _ _ _ _ hfresh
              · rw [Bool.not_eq_true] at hh
                rw [release_of_not_hasKey hh]
                exact hfresh
            exact Inv_admitInto t h1 h2

/-! ### Eviction order lemmas -/

theorem olderThan_irrefl (a : SessionRecord) : ¬ olderThan a a := by
  simp [olderThan]

theorem olderThan_asymm {a b : SessionRecord}
    (h1 : olderThan a b) (h2 : olderThan b a) : False := by
  rcases h1 with h1 | ⟨h1, h1s⟩ <;> rcases h2 with h2 | ⟨h2, h2s⟩
  · omega
  · omega
  · omega
  · exact absurd h2s (not_lt_of_lt h1s)

theorem olderThan_of_not_not {x o r : SessionRecord}
    (h1 : ¬ olderThan x o) (h2 : ¬ olderThan o r) : ¬ olderThan x r := by
  intro h3
  simp only [olderThan, not_or, not_and] at h1 h2
  obtain ⟨h1n, h1s⟩ := h1
  obtain ⟨h2n, h2s⟩ := h2
  rcases h3 with h3 | ⟨h3, h3s⟩
  · rcases Nat.lt_or_ge o.admittedAt x.admittedAt with ho | ho
    · omega
    · omega
  · have hxo : o.admittedAt = x.admittedAt := by omega
    have hor : o.admittedAt = r.admittedAt := by omega
    have hs1 : ¬ x.sessionID < o.sessionID := h1s hxo.symm
    have hs2 : ¬ o.sessionID < r.sessionID := h2s hor
    exact absurd h3s (by
      intro hlt
      exact hs2 (lt_of_le_of_lt (le_of_not_lt hs1) hlt))

theorem oldestRec_eq_none_iff (l : List SessionRecord) :
    oldestRec l = none ↔ l = [] := by
  cases l with
  | nil => simp [oldestRec]
  | cons r rest =>
    simp only [oldestRec]
    cases oldestRec rest <;> simp

theorem oldestRec_mem : ∀ {l : List SessionRecord} {m : SessionRecord},
    oldestRec l = some m → m ∈ l := by
  intro l
  induction l with
  | nil => intro m h; cases h
  | cons r rest ih =>
    intro m h
    simp only [oldestRec] at h
    cases hrest : oldestRec rest with
    | none =>
      rw [hrest] at h
      have : r = m := Option.some.inj h
      subst this
      exact List.mem_cons_self r rest
    | some o =>
      rw [hrest] at h
      have h' := Option.some.inj h
      by_cases ho : olderThan o r
      · rw [if_pos ho] at h'
        subst h'
        exact List.mem_cons_of_mem r (ih hrest)
      · rw [if_neg ho] at h'
        subst h'
        exact List.mem_cons_self r rest

theorem oldestRec_not_older :
    ∀ {l : List SessionRecord} {m : SessionRecord},
      oldestRec l = some m → ∀ r ∈ l, ¬ olderThan r m := by
  intro l
  induction l with
  | nil => intro m h; cases h
  | cons r rest ih =>
    intro m h x hx
    simp only [oldestRec] at h
    cases hrest : oldestRec rest with
    | none =>
      rw [hrest] at h
      have hm : r = m := Option.some.inj h
      have hrest' : rest = [] := (oldestRec_eq_none_iff rest).mp hrest
      rw [hrest'] at hx
      have hxr : x = r := by simpa using hx
      rw [hxr, ← hm]
      exact olderThan_irrefl r
    | some o =>
      rw [hrest] at h
      have h' := Option.some.inj h
      by_cases ho : olderThan o r
      · rw [if_pos ho] at h'
        subst h'
        rcases List.mem_cons.mp hx with hxr | hxrest
        · subst hxr
          exact fun hc => olderThan_asymm hc ho
        · exact ih hrest x hxrest
      · rw [if_neg ho] at h'
        subst h'
        rcases List.mem_cons.mp hx with hxr | hxrest
        · subst hxr
          exact olderThan_irrefl x
        · exact olderThan_of_not_not (ih hrest x hxrest) ho

theorem oldestRec_eq_of_min {l : List SessionRecord} {v : SessionRecord}
    (hv : v ∈ l) (hmin : ∀ r ∈ l, r = v ∨ olderThan v r) :
    oldestRec l = some v := by
  cases hl : oldestRec l with
  | none =>
    rw [oldestRec_eq_none_iff] at hl
    subst hl
    cases hv
  | some m =>
    have hm := oldestRec_mem hl
    have hnot := oldestRec_not_older hl v hv
    rcases hmin m hm with h | h
    · rw [h]
    · exact absurd h hnot

/-! ### Auxiliary lemmas for sequences of admissions -/

theorem getEffectiveLimit_admitInto (s : CoreState) (u sid : String) (t : Nat)
    (w : String) :
    getEffectiveLimit (admitInto s u sid t) w = getEffectiveLimit s w := rfl

theorem getEffectiveLimit_release (s : CoreState) (u sid : String)
    (w : String) :
    getEffectiveLimit (release s u sid) w = getEffectiveLimit s w := by
  unfold getEffectiveLimit
  rw [release_overrides, release_config]

theorem hasKey_cons (r : SessionRecord) (l : List SessionRecord)
    (u x : String) :
    hasKey (r :: l) u x = (keyMatch r u x || hasKey l u x) := by
  simp [hasKey]

theorem userRecords_length (s : CoreState) (u : String) :
    (userRecords s u).length = countUser s.ledger u := by
  unfold userRecords
  induction s.ledger with
  | nil => simp [countUser]
  | cons r rest ih =>
    by_cases hu : r.username = u <;>
      simp [List.filter_cons, countUser, hu, ih] <;> omega

theorem hasKey_of_mem {l : List SessionRecord} {r : SessionRecord}
    {u : String} (hmem : r ∈ l) (hu : r.username = u) :
    hasKey l u r.sessionID = true := by
  unfold hasKey
  rw [List.any_eq_true]
  exact ⟨r, hmem, by simp [keyMatch, hu]⟩

theorem mem_userRecords {s : CoreState} {u : String} {r : SessionRecord} :
    r ∈ userRecords s u ↔ r ∈ s.ledger ∧ r.username = u := by
  unfold userRecords
  rw [List.mem_filter]
  simp

theorem exists_oldest_of_countUser_pos {s : CoreState} {u : String}
    (h : 0 < countUser s.ledger u) :
    ∃ v, oldestSession s u = some v := by
  cases hold : oldestSession s u with
  | none =>
    have : oldestRec (userRecords s u) = none := hold
    rw [oldestRec_eq_none_iff] at this
    have hlen := userRecords_length s u
    rw [this] at hlen
    simp at hlen
    omega
  | some v => exact ⟨v, rfl⟩

/-- Main lemma for sequences of admissions: starting from a consistent
state where user `u` holds `c ≤ L` sessions (with `L` the user's nonzero
effective limit and admission control enabled), a run of fresh, distinct
admission attempts keeps the invariant, caps the user's live count at
`L`, admits plainly exactly until the limit is reached, rejects the rest
under `Reject`, and never rejects under `TerminateOldest`. -/
theorem runAdmits_main (u : String) (L : Nat) :
    ∀ (sids : List String) (s : CoreState) (t : Nat) (c : Nat),
      Inv s →
      s.config.enabled = true →
      getEffectiveLimit s u = L →
      0 < L →
      counterGet s u = (c : Int) →
      c ≤ L →
      sids.Nodup →
      (∀ sid ∈ sids, hasKey s.ledger u sid = false) →
      Inv (runAdmits s u sids t).2 ∧
      counterGet (runAdmits s u sids t).2 u =
        ((min (c + sids.length) L : Nat) : Int) ∧
      (runAdmits s u sids t).1.count Decision.Allowed =
        min sids.length (L - c) ∧
      (s.config.overflowAction = .Reject →
        (runAdmits s u sids t).1 =
          List.replicate (min sids.length (L - c)) Decision.Allowed ++
            List.replicate (sids.length - (L - c)) Decision.Rejected) ∧
      (s.config.overflowAction = .TerminateOldest →
        ∀ d ∈ (runAdmits s u sids t).1,
          d = Decision.Allowed ∨ ∃ w, d = Decision.AllowedWithEviction w) := by
  intro sids
  induction sids with
  | nil =>
    intro s t c hInv hen hL hLpos hc hcL hnd hfresh
    refine ⟨hInv, ?_, by simp [runAdmits], ?_, ?_⟩
    · have e : min (c + ([] : List String).length) L = c := by simp; omega
      rw [e]
      exact hc
    · intro _
      simp [runAdmits]
    · intro _ d hd
      simp [runAdmits] at hd
  | cons sid rest ih =>
    intro s t c hInv hen hL hLpos hc hcL hnd hfresh
    have hfhead : hasKey s.ledger u sid = false :=
      hfresh sid (List.mem_cons_self _ _)
    have hndrest : rest.Nodup := (List.nodup_cons.mp hnd).2
    have hsidrest : sid ∉ rest := (List.nodup_cons.mp hnd).1
    have hL0 : getEffectiveLimit s u ≠ 0 := by rw [hL]; omega
    by_cases hclt : c < L
    · -- still under the limit: the head admission is plainly allowed
      have hlt : counterGet s u < (getEffectiveLimit s u : Int) := by
        rw [hc, hL]; exact_mod_cast hclt
      have hstep := tryAdmit_under (s := s) (u := u) sid t hen hL0 hlt
      have hfr : ∀ x ∈ rest,
          hasKey (admitInto s u sid t).ledger u x = false := by
        intro x hx
        have hsx : (sid == x) = false := by
          have : sid ≠ x := fun h => hsidrest (h ▸ hx)
          simpa using this
        rw [admitInto_ledger, hasKey_cons]
        have h2 := hfresh x (List.mem_cons_of_mem _ hx)
        simp [keyMatch, hsx, h2]
      have hih := ih (admitInto s u sid t) (t + 1) (c + 1)
        (Inv_admitInto t hInv hfhead)
        (by rw [admitInto_config]; exact hen)
        (by rw [getEffectiveLimit_admitInto]; exact hL)
        hLpos
        (by rw [counterGet_admitInto, if_pos rfl, hc]; push_cast; ring)
        (by omega)
        hndrest
        hfr
      obtain ⟨ih1, ih2, ih3, ih4, ih5⟩ := hih
      refine ⟨?_, ?_, ?_, ?_, ?_⟩
      · simpa [runAdmits, hstep] using ih1
      · have e : c + 1 + rest.length = c + (sid :: rest).length := by
          simp; omega
        rw [← e]
        simpa [runAdmits, hstep] using ih2
      · have e : min ((sid :: rest).length) (L - c) =
            min rest.length (L - (c + 1)) + 1 := by simp; omega
        rw [e]
        simp only [runAdmits, hstep, List.count_cons]
        simp [ih3]
      · intro hact
        have hact' : (admitInto s u sid t).config.overflowAction =
            .Reject := by rw [admitInto_config]; exact hact
        have e1 : min ((sid :: rest).length) (L - c) =
            min rest.length (L - (c + 1)) + 1 := by simp; omega
        have e2 : (sid :: rest).length - (L - c) =
            rest.length - (L - (c + 1)) := by simp; omega
        rw [e1, e2, List.replicate_succ, List.cons_append]
        simp only [runAdmits, hstep]
        simp [ih4 hact']
      · intro hact d hd
        have hact' : (admitInto s u sid t).config.overflowAction =
            .TerminateOldest := by rw [admitInto_config]; exact hact
        simp only [runAdmits, hstep] at hd
        rcases List.mem_cons.mp hd with hd | hd
        · exact Or.inl hd
        · exact ih5 hact' d hd
    · -- at the limit: the head admission is rejected or evicts
      have hceq : c = L := by omega
      have hge : ¬ counterGet s u < (getEffectiveLimit s u : Int) := by
        rw [hc, hL]; omega
      cases hact : s.config.overflowAction with
      | Reject =>
        have hstep := tryAdmit_reject sid t hen hL0 hge hact
        have hfr : ∀ x ∈ rest,
            hasKey ({ s with rejections := s.rejections + 1 }).ledger u x =
              false :=
          fun x hx => hfresh x (List.mem_cons_of_mem _ hx)
        have hih := ih { s with rejections := s.rejections + 1 } (t + 1) c
          ⟨hInv.1, hInv.2⟩ hen hL hLpos hc hcL hndrest hfr
        obtain ⟨ih1, ih2, ih3, ih4, ih5⟩ := hih
        refine ⟨?_, ?_, ?_, ?_, ?_⟩
        · simpa [runAdmits, hstep] using ih1
        · have e : c + rest.length = c + (sid :: rest).length ∨
              min (c + rest.length) L = min (c + (sid :: rest).length) L := by
            right; simp; omega
          have e' : min (c + rest.length) L =
              min (c + (sid :: rest).length) L := by simp; omega
          rw [← e']
          simpa [runAdmits, hstep] using ih2
        · have e : min ((sid :: rest).length) (L - c) = 0 := by simp; omega
          have e3 : min rest.length (L - c) = 0 := by omega
          rw [e]
          simp only [runAdmits, hstep, List.count_cons]
          simp [ih3, e3]
        · intro _
          have e0 : L - c = 0 := by omega
          have hds := ih4 hact
          rw [e0] at hds ⊢
          simp only [runAdmits, hstep]
          simp at hds
          simp [hds, List.replicate_succ]
        · intro h _ _
          cases h
      | TerminateOldest =>
        have hcount : countUser s.ledger u = c := by
          have h1 := hInv.1 u
          rw [hc] at h1
          exact_mod_cast h1.symm
        obtain ⟨v, hold⟩ := exists_oldest_of_countUser_pos
          (s := s) (u := u) (by omega)
        have hstep := tryAdmit_evict sid t hen hL0 hge hact hold
        have hold' : oldestRec (userRecords s u) = some v := hold
        have hvmem : v ∈ userRecords s u := oldestRec_mem hold'
        have hvled : v ∈ s.ledger ∧ v.username = u :=
          mem_userRecords.mp hvmem
        have hhk : hasKey s.ledger u v.sessionID = true :=
          hasKey_of_mem hvled.1 hvled.2
        have hrel_ledger : (release s u v.sessionID).ledger =
            removeKey s.ledger u v.sessionID :=
          release_ledger_removeKey s u v.sessionID hhk
        have hfr : ∀ x ∈ rest,
            hasKey (admitInto (release s u v.sessionID) u sid t).ledger u x =
              false := by
          intro x hx
          have hsx : (sid == x) = false := by
            have : sid ≠ x := fun h => hsidrest (h ▸ hx)
            simpa using this
          rw [admitInto_ledger, hasKey_cons, hrel_ledger]
          have h2 := hasKey_removeKey_false s.ledger u v.sessionID u x
            (hfresh x (List.mem_cons_of_mem _ hx))
          simp [keyMatch, hsx, h2]
        have hInvS : Inv (admitInto (release s u v.sessionID) u sid t) := by
          have h := Inv_tryAdmit t hInv hfhead
          rw [hstep] at h
          exact h
        have hcntS : counterGet
            (admitInto (release s u v.sessionID) u sid t) u = (c : Int) := by
          rw [counterGet_admitInto, if_pos rfl, counterGet_release,
            if_pos hhk, if_pos rfl, hc]
          omega
        have hih := ih (admitInto (release s u v.sessionID) u sid t)
          (t + 1) c hInvS
          (by rw [admitInto_config, release_config]; exact hen)
          (by rw [getEffectiveLimit_admitInto, getEffectiveLimit_release];
              exact hL)
          hLpos hcntS hcL hndrest hfr
        obtain ⟨ih1, ih2, ih3, ih4, ih5⟩ := hih
        refine ⟨?_, ?_, ?_, ?_, ?_⟩
        · simpa [runAdmits, hstep] using ih1
        · have e' : min (c + rest.length) L =
              min (c + (sid :: rest).length) L := by simp; omega
          rw [← e']
          simpa [runAdmits, hstep] using ih2
        · have e : min ((sid :: rest).length) (L - c) = 0 := by simp; omega
          have e3 : min rest.length (L - c) = 0 := by omega
          rw [e]
          simp only [runAdmits, hstep, List.count_cons]
          simp [ih3, e3]
        · intro h
          cases h
        · intro hact2 d hd
          have hact' : (admitInto (release s u v.sessionID) u sid
              t).config.overflowAction = .TerminateOldest := by
            rw [admitInto_config, release_config]; exact hact
          simp only [runAdmits, hstep] at hd
          rcases List.mem_cons.mp hd with hd | hd
          · exact Or.inr ⟨v.sessionID, hd⟩
          · exact ih5 hact' d hd

/-! ## Claims -/

/-- C1: for every username with effective limit `L > 0`, a run of `N > L`
fresh admission attempts with no intervening release admits exactly `L`
plainly; the remainder are Rejected under `Reject` and evictions under
`TerminateOldest`; and after every prefix of the run the user's live
count — both the counter and the ledger census — never exceeds `L`. -/
theorem C1_limit_bound
    (s : CoreState) (u : String) (sids : List String) (t : Nat) (L : Nat)
    (hInv : Inv s) (hen : s.config.enabled = true)
    (hL : getEffectiveLimit s u = L) (hLpos : 0 < L)
    (hc : counterGet s u = 0) (hnd : sids.Nodup) (hN : L < sids.length) :
    (runAdmits s u sids t).1.count Decision.Allowed = L ∧
    (s.config.overflowAction = .Reject →
      (runAdmits s u sids t).1 =
        List.replicate L Decision.Allowed ++
          List.replicate (sids.length - L) Decision.Rejected) ∧
    (s.config.overflowAction = .TerminateOldest →
      ∀ d ∈ (runAdmits s u sids t).1,
        d = Decision.Allowed ∨ ∃ w, d = Decision.AllowedWithEviction w) ∧
    (∀ pre suf, sids = pre ++ suf →
      counterGet (runAdmits s u pre t).2 u ≤ (L : Int) ∧
      countUser (runAdmits s u pre t).2.ledger u ≤ L) := by
  have hcount0 : countUser s.ledger u = 0 := by
    have h1 := hInv.1 u
    rw [hc] at h1
    exact_mod_cast h1.symm
  have hfresh : ∀ x ∈ sids, hasKey s.ledger u x = false := by
    intro x hx
    rw [hasKey_false_iff]
    have := countKey_le_countUser s.ledger u x
    omega
  have hc' : counterGet s u = ((0 : Nat) : Int) := by rw [hc]; rfl
  have hmain := runAdmits_main u L sids s t 0 hInv hen hL hLpos hc'
    (by omega) hnd hfresh
  obtain ⟨m1, m2, m3, m4, m5⟩ := hmain
  refine ⟨?_, ?_, ?_, ?_⟩
  · rw [m3]; omega
  · intro hact
    have hds := m4 hact
    rw [hds]
    have e1 : min sids.length (L - 0) = L := by omega
    have e2 : sids.length - (L - 0) = sids.length - L := by omega
    rw [e1, e2]
  · exact m5
  · intro pre suf hps
    have hndpre : pre.Nodup := by
      rw [hps] at hnd
      exact hnd.of_append_left
    have hfrpre : ∀ x ∈ pre, hasKey s.ledger u x = false := fun x hx =>
      hfresh x (by rw [hps]; exact List.mem_append_left _ hx)
    have hpre := runAdmits_main u L pre s t 0 hInv hen hL hLpos hc'
      (by omega) hndpre hfrpre
    obtain ⟨p1, p2, _, _, _⟩ := hpre
    constructor
    · rw [p2]
      have hle : min (0 + pre.length) L ≤ L := by omega
      exact_mod_cast hle
    · have hinv1 := p1.1 u
      rw [p2] at hinv1
      have he : countUser (runAdmits s u pre t).2.ledger u =
          min (0 + pre.length) L := by exact_mod_cast hinv1.symm
      omega

/-- Witness for C1 at a concrete input: default limit 1, two fresh
admission attempts for "alice" starting from the empty state. -/
theorem C1_limit_bound_witness :
    (runAdmits ⟨⟨true, 1, .Reject⟩, [], [], [], 0⟩ "alice" ["a", "b"]
        0).1.count Decision.Allowed = 1 ∧
    ((⟨⟨true, 1, .Reject⟩, [], [], [], 0⟩ : CoreState).config.overflowAction =
        .Reject →
      (runAdmits ⟨⟨true, 1, .Reject⟩, [], [], [], 0⟩ "alice" ["a", "b"] 0).1 =
        List.replicate 1 Decision.Allowed ++
          List.replicate (["a", "b"].length - 1) Decision.Rejected) ∧
    ((⟨⟨true, 1, .Reject⟩, [], [], [], 0⟩ : CoreState).config.overflowAction =
        .TerminateOldest →
      ∀ d ∈ (runAdmits ⟨⟨true, 1, .Reject⟩, [], [], [], 0⟩ "alice"
          ["a", "b"] 0).1,
        d = Decision.Allowed ∨ ∃ w, d = Decision.AllowedWithEviction w) ∧
    (∀ pre suf, ["a", "b"] = pre ++ suf →
      counterGet (runAdmits ⟨⟨true, 1, .Reject⟩, [], [], [], 0⟩ "alice"
          pre 0).2 "alice" ≤ ((1 : Nat) : Int) ∧
      countUser (runAdmits ⟨⟨true, 1, .Reject⟩, [], [], [], 0⟩ "alice"
          pre 0).2.ledger "alice" ≤ 1) :=
  C1_limit_bound ⟨⟨true, 1, .Reject⟩, [], [], [], 0⟩ "alice" ["a", "b"] 0 1
    ⟨fun _ => rfl, fun _ _ => Nat.zero_le 1⟩ rfl rfl (by decide) rfl
    (by decide) (by decide)

/-- C2: the central invariant — the Counter Store count of every username
equals the number of that user's `SessionRecord`s in the Session Ledger —
is preserved by every completed `TryAdmit` (for a fresh session
identifier) and by every completed `Release`. -/
theorem C2_count_matches_ledger (s : CoreState) (u sid : String) (t : Nat)
    (u' sid' : String)
    (hInv : Inv s) (hfresh : hasKey s.ledger u sid = false) :
    (∀ w, counterGet (tryAdmit s u sid t).2 w =
      (countUser (tryAdmit s u sid t).2.ledger w : Int)) ∧
    (∀ w, counterGet (release s u' sid') w =
      (countUser (release s u' sid').ledger w : Int)) :=
  ⟨(Inv_tryAdmit t hInv hfresh).1, (Inv_release u' sid' hInv).1⟩

/-- Witness for C2 at a concrete input: an admission for "alice" and a
release for "bob" from the empty state. -/
theorem C2_count_matches_ledger_witness :
    (∀ w, counterGet
        (tryAdmit ⟨⟨true, 3, .Reject⟩, [], [], [], 0⟩ "alice" "c1" 0).2 w =
      (countUser
        (tryAdmit ⟨⟨true, 3, .Reject⟩, [], [], [], 0⟩ "alice" "c1"
          0).2.ledger w : Int)) ∧
    (∀ w, counterGet
        (release ⟨⟨true, 3, .Reject⟩, [], [], [], 0⟩ "bob" "x") w =
      (countUser
        (release ⟨⟨true, 3, .Reject⟩, [], [], [], 0⟩ "bob" "x").ledger w :
          Int)) :=
  C2_count_matches_ledger ⟨⟨true, 3, .Reject⟩, [], [], [], 0⟩ "alice" "c1" 0
    "bob" "x" ⟨fun _ => rfl, fun _ _ => Nat.zero_le 1⟩ rfl

/-- C3: with `defaultLimit = 3` and `overflowAction = Reject`, six
sequential admissions for "alice" yield exactly Allowed, Allowed,
Allowed, Rejected, Rejected, Rejected, and after releasing "c2" a
seventh admission is Allowed. -/
theorem C3_alice_scenario :
    (runAdmits ⟨⟨true, 3, .Reject⟩, [], [], [], 0⟩ "alice"
        ["c1", "c2", "c3", "c4", "c5", "c6"] 0).1 =
      [.Allowed, .Allowed, .Allowed, .Rejected, .Rejected, .Rejected] ∧
    (tryAdmit
        (release
          (runAdmits ⟨⟨true, 3, .Reject⟩, [], [], [], 0⟩ "alice"
            ["c1", "c2", "c3", "c4", "c5", "c6"] 0).2 "alice" "c2")
        "alice" "c7" 10).1 = .Allowed := by
  constructor
  · decide
  · decide

/-- C4: a user whose effective limit is 0 is always admitted, regardless
of the user's current count. -/
theorem C4_zero_limit_always_allowed (s : CoreState) (u sid : String)
    (t : Nat) (h0 : getEffectiveLimit s u = 0) :
    (tryAdmit s u sid t).1 = .Allowed := by
  by_cases hen : s.config.enabled = false
  · rw [tryAdmit_disabled u sid t hen]
  · rw [Bool.not_eq_false] at hen
    rw [tryAdmit_unlimited sid t hen h0]

/-- Witness for C4 at a concrete input: "bob" has override 0 and already
holds 50 sessions by counter; the admission is still Allowed. -/
theorem C4_zero_limit_always_allowed_witness :
    (tryAdmit ⟨⟨true, 3, .Reject⟩, [("bob", 0)], [], [("bob", 50)], 0⟩
      "bob" "c51" 7).1 = .Allowed :=
  C4_zero_limit_always_allowed
    ⟨⟨true, 3, .Reject⟩, [("bob", 0)], [], [("bob", 50)], 0⟩ "bob" "c51" 7 rfl

/-- C5: override precedence — immediately after `SetUserLimit(u, k)` the
effective limit of `u` is `k`, and after a subsequent `DeleteUserLimit(u)`
it is back to `defaultLimit`. -/
theorem C5_override_precedence (s : CoreState) (u : String) (k : Nat) :
    getEffectiveLimit (setUserLimit s u k) u = k ∧
    getEffectiveLimit (deleteUserLimit (setUserLimit s u k) u) u =
      s.config.defaultLimit := by
  constructor
  · unfold getEffectiveLimit setUserLimit
    simp [alookup]
  · unfold getEffectiveLimit deleteUserLimit
    rw [alookup_filter_ne]
    simp [setUserLimit]

/-- C6: `Release` is idempotent — releasing the same pair twice equals
releasing it once; releasing an unknown pair is a no-op; and the
counter is never driven below zero. -/
theorem C6_release_idempotent (s : CoreState) (u sid : String) :
    release (release s u sid) u sid = release s u sid ∧
    (hasKey s.ledger u sid = false → release s u sid = s) ∧
    (0 ≤ counterGet s u → 0 ≤ counterGet (release s u sid) u) := by
  refine ⟨?_, fun h => release_of_not_hasKey h, ?_⟩
  · by_cases h : hasKey s.ledger u sid = true
    · have hled : (release s u sid).ledger = removeKey s.ledger u sid :=
        release_ledger_removeKey s u sid h
      have hgone : hasKey (release s u sid).ledger u sid = false := by
        rw [hled, hasKey_false_iff]
        exact countKey_removeKey_self s.ledger u sid
      exact release_of_not_hasKey hgone
    · rw [Bool.not_eq_true] at h
      rw [release_of_not_hasKey h, release_of_not_hasKey h]
  · intro hpos
    rw [counterGet_release]
    by_cases h : hasKey s.ledger u sid = true
    · rw [if_pos h, if_pos rfl]
      exact le_max_left 0 _
    · rw [Bool.not_eq_true] at h
      rw [if_neg (by simp [h])]
      exact hpos

/-- Witness for C6 at a concrete input: a state where "alice" holds
session "c1" with counter 1. -/
theorem C6_release_idempotent_witness :
    release (release ⟨⟨true, 3, .Reject⟩, [], [⟨"c1", "alice", 0⟩],
        [("alice", 1)], 0⟩ "alice" "c1") "alice" "c1" =
      release ⟨⟨true, 3, .Reject⟩, [], [⟨"c1", "alice", 0⟩],
        [("alice", 1)], 0⟩ "alice" "c1" ∧
    (hasKey (⟨⟨true, 3, .Reject⟩, [], [⟨"c1", "alice", 0⟩],
        [("alice", 1)], 0⟩ : CoreState).ledger "alice" "c1" = false →
      release ⟨⟨true, 3, .Reject⟩, [], [⟨"c1", "alice", 0⟩],
        [("alice", 1)], 0⟩ "alice" "c1" =
        ⟨⟨true, 3, .Reject⟩, [], [⟨"c1", "alice", 0⟩], [("alice", 1)], 0⟩) ∧
    (0 ≤ counterGet ⟨⟨true, 3, .Reject⟩, [], [⟨"c1", "alice", 0⟩],
        [("alice", 1)], 0⟩ "alice" →
      0 ≤ counterGet (release ⟨⟨true, 3, .Reject⟩, [], [⟨"c1", "alice", 0⟩],
        [("alice", 1)], 0⟩ "alice" "c1") "alice") :=
  C6_release_idempotent
    ⟨⟨true, 3, .Reject⟩, [], [⟨"c1", "alice", 0⟩], [("alice", 1)], 0⟩
    "alice" "c1"

/-- C7: with `overflowAction = TerminateOldest` and a user at their
limit, `TryAdmit` evicts exactly the strictly oldest admitted session
(smallest `admittedAt`, ties broken by lexicographically smallest
`sessionID`), admits the new one, and names the evicted session in the
decision. -/
theorem C7_evicts_oldest
    (s : CoreState) (u sid : String) (t : Nat) (L : Nat) (v : SessionRecord)
    (hen : s.config.enabled = true)
    (hact : s.config.overflowAction = .TerminateOldest)
    (hL : getEffectiveLimit s u = L) (hLpos : 0 < L)
    (hc : (L : Int) ≤ counterGet s u)
    (hv : v ∈ userRecords s u)
    (hmin : ∀ r ∈ userRecords s u, r = v ∨ olderThan v r) :
    tryAdmit s u sid t =
      (.AllowedWithEviction v.sessionID,
        admitInto (release s u v.sessionID) u sid t) := by
  have hold : oldestSession s u = some v := oldestRec_eq_of_min hv hmin
  have h0 : getEffectiveLimit s u ≠ 0 := by rw [hL]; omega
  have hge : ¬ counterGet s u < (getEffectiveLimit s u : Int) := by
    rw [hL]; omega
  exact tryAdmit_evict sid t hen h0 hge hact hold

/-- Witness for C7 at a concrete input: three sessions admitted at times
1 < 2 < 3 with limit 3; the fourth admission evicts the session admitted
at time 1. -/
theorem C7_evicts_oldest_witness :
    tryAdmit ⟨⟨true, 3, .TerminateOldest⟩, [],
        [⟨"s2", "u", 2⟩, ⟨"s1", "u", 1⟩, ⟨"s3", "u", 3⟩], [("u", 3)], 0⟩
      "u" "s4" 10 =
      (.AllowedWithEviction (⟨"s1", "u", 1⟩ : SessionRecord).sessionID,
        admitInto
          (release ⟨⟨true, 3, .TerminateOldest⟩, [],
              [⟨"s2", "u", 2⟩, ⟨"s1", "u", 1⟩, ⟨"s3", "u", 3⟩],
              [("u", 3)], 0⟩
            "u" (⟨"s1", "u", 1⟩ : SessionRecord).sessionID)
          "u" "s4" 10) :=
  C7_evicts_oldest
    ⟨⟨true, 3, .TerminateOldest⟩, [],
      [⟨"s2", "u", 2⟩, ⟨"s1", "u", 1⟩, ⟨"s3", "u", 3⟩], [("u", 3)], 0⟩
    "u" "s4" 10 3 ⟨"s1", "u", 1⟩ rfl rfl rfl (by decide) (by decide)
    (by decide) (by decide)

/-- C8: `GetEffectiveLimit` is total — for any username with no override
it returns `defaultLimit`; a lookup miss is not an error, and the
operation reads no other state. -/
theorem C8_effective_limit_total (s : CoreState) (u : String)
    (h : alookup s.overrides u = none) :
    getEffectiveLimit s u = s.config.defaultLimit := by
  unfold getEffectiveLimit
  rw [h]
  rfl

/-- Witness for C8 at a concrete input: a username never seen before,
with an unrelated override present. -/
theorem C8_effective_limit_total_witness :
    getEffectiveLimit ⟨⟨true, 5, .Reject⟩, [("bob", 2)], [], [], 0⟩
        "neverseen" =
      (⟨⟨true, 5, .Reject⟩, [("bob", 2)], [], [], 0⟩ :
        CoreState).config.defaultLimit :=
  C8_effective_limit_total ⟨⟨true, 5, .Reject⟩, [("bob", 2)], [], [], 0⟩
    "neverseen" (by decide)

/-- C9: `DeleteUserLimit` is idempotent — a second delete changes
nothing, no override remains for the username afterwards, and the
effective limit falls back to `defaultLimit`. -/
theorem C9_delete_idempotent (s : CoreState) (u : String) :
    deleteUserLimit (deleteUserLimit s u) u = deleteUserLimit s u ∧
    alookup (deleteUserLimit s u).overrides u = none ∧
    getEffectiveLimit (deleteUserLimit s u) u = s.config.defaultLimit := by
  refine ⟨?_, ?_, ?_⟩
  · unfold deleteUserLimit
    simp [List.filter_filter]
  · unfold deleteUserLimit
    show alookup (s.overrides.filter fun p => p.1 ≠ u) u = none
    rw [alookup_filter_ne]
    simp
  · unfold getEffectiveLimit deleteUserLimit
    show (alookup (s.overrides.filter fun p => p.1 ≠ u) u).getD
      s.config.defaultLimit = s.config.defaultLimit
    rw [alookup_filter_ne]
    simp

/-- C10: `SetUserLimit(u, k)` and `DeleteUserLimit(u)` are frame-local —
for any other username `v`, both the effective limit of `v` and `v`'s
binding in the override snapshot are unchanged. -/
theorem C10_registry_frame (s : CoreState) (u v : String) (k : Nat)
    (hvu : v ≠ u) :
    getEffectiveLimit (setUserLimit s u k) v = getEffectiveLimit s v ∧
    alookup (listOverrides (setUserLimit s u k)) v =
      alookup (listOverrides s) v ∧
    getEffectiveLimit (deleteUserLimit s u) v = getEffectiveLimit s v ∧
    alookup (listOverrides (deleteUserLimit s u)) v =
      alookup (listOverrides s) v := by
  have huv : ¬ u = v := fun h => hvu h.symm
  have hset : alookup (setUserLimit s u k).overrides v =
      alookup s.overrides v := by
    show alookup ((u, k) :: s.overrides.filter fun p => p.1 ≠ u) v = _
    rw [show alookup ((u, k) :: s.overrides.filter fun p => p.1 ≠ u) v =
        if u = v then some k
        else alookup (s.overrides.filter fun p => p.1 ≠ u) v from rfl]
    rw [if_neg huv, alookup_filter_ne, if_neg hvu]
  have hdel : alookup (deleteUserLimit s u).overrides v =
      alookup s.overrides v := by
    show alookup (s.overrides.filter fun p => p.1 ≠ u) v = _
    rw [alookup_filter_ne, if_neg hvu]
  refine ⟨?_, hset, ?_, hdel⟩
  · unfold getEffectiveLimit
    rw [hset]
    rfl
  · unfold getEffectiveLimit
    rw [hdel]
    rfl

/-- Witness for C10 at a concrete input: changing "a" leaves "v0"'s
override and effective limit untouched. -/
theorem C10_registry_frame_witness :
    getEffectiveLimit (setUserLimit ⟨⟨true, 3, .Reject⟩, [("v0", 7)], [],
        [], 0⟩ "a" 2) "v0" =
      getEffectiveLimit ⟨⟨true, 3, .Reject⟩, [("v0", 7)], [], [], 0⟩ "v0" ∧
    alookup (listOverrides (setUserLimit ⟨⟨true, 3, .Reject⟩, [("v0", 7)],
        [], [], 0⟩ "a" 2)) "v0" =
      alookup (listOverrides ⟨⟨true, 3, .Reject⟩, [("v0", 7)], [], [], 0⟩)
        "v0" ∧
    getEffectiveLimit (deleteUserLimit ⟨⟨true, 3, .Reject⟩, [("v0", 7)], [],
        [], 0⟩ "a") "v0" =
      getEffectiveLimit ⟨⟨true, 3, .Reject⟩, [("v0", 7)], [], [], 0⟩ "v0" ∧
    alookup (listOverrides (deleteUserLimit ⟨⟨true, 3, .Reject⟩,
        [("v0", 7)], [], [], 0⟩ "a")) "v0" =
      alookup (listOverrides ⟨⟨true, 3, .Reject⟩, [("v0", 7)], [], [], 0⟩)
        "v0" :=
  C10_registry_frame ⟨⟨true, 3, .Reject⟩, [("v0", 7)], [], [], 0⟩ "a" "v0" 2
    (by decide)

end VoiceFerry
